import Mathlib

/-!
A Lean model of the MapTap companion bot (`maptap_bot.py`): the score-ingestion
ledger and per-user aggregates, the streak computation, the ranking helpers,
the rivalry detector, the scheduler tick, and the stats-repair rebuild,
together with theorems about their behaviour.

Modelling conventions:
* Python dicts are association lists preserving insertion order; `getk` is
  dict lookup (first binding wins), `setk` is `m[k] = v` (replaces the binding
  in place, appends at the end when the key is new), `setdefault` mirrors
  `dict.setdefault` (appends a default binding at the end when absent).
* Calendar day keys (ISO `YYYY-MM-DD` strings in the fixed UK timezone) are
  modelled as integers: consecutive calendar days differ by 1.
* User ids (stringified Discord ids) are strings.
* Scores are naturals, running totals are integers (the code subtracts before
  it re-adds, so intermediate values are integer-valued).
* All-time averages (`total_points / days_played`, Python float division) are
  modelled as exact rationals; period averages use Python's `round` (banker's
  rounding, half to even), modelled by `pyRound`.
-/

namespace MapTap

/-- Calendar day key. The Python code keys buckets by ISO date strings in the
`Europe/London` zone; consecutive days differ by 1 here. -/
abbrev Day := Int

/-- Stringified Discord user id. -/
abbrev UserId := String

/-- Dict lookup: first binding for the key, if any. -/
def getk [DecidableEq κ] (k : κ) : List (κ × β) → Option β
  | [] => none
  | (k2, v) :: rest => if k = k2 then some v else getk k rest

/-- Dict assignment `m[k] = v`: replaces the first binding in place, appends
at the end when the key is new (CPython dict semantics). -/
def setk [DecidableEq κ] (k : κ) (v : β) : List (κ × β) → List (κ × β)
  | [] => [(k, v)]
  | (k2, v2) :: rest => if k = k2 then (k, v) :: rest else (k2, v2) :: setk k v rest

/-- `dict.setdefault k v`: leaves the dict alone when `k` is bound, otherwise
appends the default binding at the end. -/
def setdefault [DecidableEq κ] (k : κ) (v : β) (l : List (κ × β)) : List (κ × β) :=
  match getk k l with
  | some _ => l
  | none => l ++ [(k, v)]

/-- One ledger entry: `{"score": ..., "updated_at": ...}` (the timestamp is
opaque here). -/
structure ScoreEntry where
  score : Nat
  updated_at : Int
deriving DecidableEq

/-- A daily bucket: `userId -> ScoreEntry`. -/
abbrev DayBucket := List (UserId × ScoreEntry)

/-- The scores ledger document: `dayKey -> DailyBucket`
(`data/maptap_scores.json`). -/
abbrev Scores := List (Day × DayBucket)

/-- A best/low record `{"score": ..., "date": ...}`; `date = none` models the
`"N/A"` placeholder. -/
structure PBRecord where
  score : Nat
  date : Option Day
deriving DecidableEq

/-- Per-user aggregate stats, the values of `data/maptap_users.json`. -/
structure UserStats where
  total_points : Int
  days_played : Nat
  best_streak : Nat
  personal_best : PBRecord
  personal_low : PBRecord
deriving DecidableEq

/-- The users aggregate document: `userId -> UserStats`. -/
abbrev Users := List (UserId × UserStats)

/-- `default_user_stats()`: zeroed totals, `personal_low.score` seeded to the
sentinel `100000` so the first real score always becomes the low. -/
def default_user_stats : UserStats :=
  { total_points := 0
    days_played := 0
    best_streak := 0
    personal_best := { score := 0, date := none }
    personal_low := { score := 100000, date := none } }

/-- `users[uid] = f(users[uid])` for a key already known to be bound; leaves
the dict alone when the key is absent. -/
def updateUser (users : Users) (uid : UserId) (f : UserStats → UserStats) : Users :=
  match getk uid users with
  | some st => setk uid (f st) users
  | none => users

/-- The days on which `uid` has a ledger entry: the list of parsed day keys
collected by the first loop of `calculate_current_streak`. -/
def playedDays (scores : Scores) (uid : UserId) : List Day :=
  (scores.filter (fun p => (getk uid p.2).isSome)).map Prod.fst

/-- The backward walk of `calculate_current_streak`: starting at day `d`,
count consecutive days present in `played`. The Python `while` loop needs no
fuel; here the fuel is set (and proved) large enough to never be exhausted. -/
def streakFrom (played : List Day) : Nat → Day → Nat
  | 0, _ => 0
  | fuel + 1, d => if d ∈ played then streakFrom played fuel (d - 1) + 1 else 0

/-- `calculate_current_streak(scores, user_id)`: collect the set of days the
user has an entry for, then walk backward from `today` counting consecutive
present days until a gap. -/
def calculate_current_streak (scores : Scores) (uid : UserId) (today : Day) : Nat :=
  let played := (playedDays scores uid).dedup
  if played.isEmpty then 0
  else streakFrom played (played.length + 1) today

/-- Outcome of one ingestion, distinguishing the three branches of
`on_message`: early return on `score > MAX_SCORE`, overwrite of an existing
same-day entry, or a fresh entry. -/
inductive Outcome
  | rejectedTooHigh
  | recordedNew
  | recordedOverwrite
deriving DecidableEq

/-- The per-user aggregate update `on_message` performs for an accepted score:
undo a same-day entry (or count a new day), re-add the score, then the strict
personal-best / personal-low updates, then the best-streak high-water mark.
`cur` is the current streak computed from the already-updated ledger. -/
def ingestStats (score : Nat) (dkey : Day) (cur : Nat) (existing : Option ScoreEntry)
    (st : UserStats) : UserStats :=
  let st1 :=
    match existing with
    | some e => { st with total_points := st.total_points - e.score }
    | none => { st with days_played := st.days_played + 1 }
  let st2 := { st1 with total_points := st1.total_points + score }
  let st3 :=
    if st2.personal_best.score < score then
      { st2 with personal_best := { score := score, date := some dkey } }
    else st2
  let st4 :=
    if score < st3.personal_low.score then
      { st3 with personal_low := { score := score, date := some dkey } }
    else st3
  { st4 with best_streak := max st4.best_streak cur }

/-- The score-ingestion core of `on_message` (after parsing): reject scores
above `MAX_SCORE` untouched; otherwise replace the same-day entry, maintain
`total_points` / `days_played`, update the strict PB/low records, and raise
`best_streak` to the current streak of the updated ledger. `today` is the
current date used by the streak walk; `dkey` is the message's day key. -/
def on_message_ingest (maxScore : Nat) (today dkey : Day) (msgTime : Int)
    (uid : UserId) (score : Nat) (scores : Scores) (users : Users) :
    Scores × Users × Outcome :=
  if score > maxScore then (scores, users, Outcome.rejectedTooHigh)
  else
    let scores1 := setdefault dkey [] scores
    let bucket := (getk dkey scores1).getD []
    let existing := getk uid bucket
    let scores2 := setk dkey (setk uid ⟨score, msgTime⟩ bucket) scores1
    let cur := calculate_current_streak scores2 uid today
    let users1 := updateUser (setdefault uid default_user_stats users) uid
      (ingestStats score dkey cur existing)
    (scores2, users1, if existing.isSome then Outcome.recordedOverwrite else Outcome.recordedNew)

/-- A parsed inbound submission, for sequencing ingestions. -/
structure Submission where
  today : Day
  dkey : Day
  msgTime : Int
  uid : UserId
  score : Nat

/-- Apply a sequence of submissions through `on_message_ingest`, threading the
two documents. -/
def applyAll (maxScore : Nat) : List Submission → Scores × Users → Scores × Users
  | [], docs => docs
  | sub :: rest, (scores, users) =>
      let r := on_message_ingest maxScore sub.today sub.dkey sub.msgTime sub.uid sub.score scores users
      applyAll maxScore rest (r.1, r.2.1)

/-- The user's contribution to one daily bucket (0 when absent). -/
def bucketScoreOf (bucket : DayBucket) (uid : UserId) : Int :=
  ((getk uid bucket).map (fun e => (e.score : Int))).getD 0

/-- `sum(ledger[*][u].score)`: the user's total over every day bucket of the
ledger. -/
def userSum (scores : Scores) (uid : UserId) : Int :=
  (scores.map (fun p => bucketScoreOf p.2 uid)).sum

/-- `aggregates[u].total_points`, 0 for an absent user. -/
def totalOf (users : Users) (uid : UserId) : Int :=
  ((getk uid users).map UserStats.total_points).getD 0

/-- `aggregates[u].days_played`, 0 for an absent user. -/
def daysOf (users : Users) (uid : UserId) : Nat :=
  ((getk uid users).map UserStats.days_played).getD 0

/-- `aggregates[u].best_streak`, 0 for an absent user. -/
def bestOf (users : Users) (uid : UserId) : Nat :=
  ((getk uid users).map UserStats.best_streak).getD 0

/-- `aggregates[u].personal_best`, for a present user. -/
def pbOf (users : Users) (uid : UserId) : Option PBRecord :=
  (getk uid users).map UserStats.personal_best

/-- `aggregates[u].personal_low`, for a present user. -/
def lowOf (users : Users) (uid : UserId) : Option PBRecord :=
  (getk uid users).map UserStats.personal_low

/-- Stable descending insertion: place `a` before the first element whose key
is `≤ key a`, so elements with strictly larger keys stay ahead and equal-keyed
elements keep their original relative order. -/
def insDesc [LinearOrder κ] (key : α → κ) (a : α) : List α → List α
  | [] => [a]
  | b :: bs => if key b ≤ key a then a :: b :: bs else b :: insDesc key a bs

/-- `list.sort(key=..., reverse=True)`: the stable descending sort by key
(Python's sort is stable; any stable descending sort of a list by a totally
ordered key yields the same list). -/
def sortByKeyDesc [LinearOrder κ] (key : α → κ) : List α → List α
  | [] => []
  | a :: rest => insDesc key a (sortByKeyDesc key rest)

/-- `eligible_users(users)`: the users with `days_played > 0`. -/
def eligible_users (users : Users) : Users :=
  users.filter (fun p => 0 < p.2.days_played)

/-- The rows `(uid, total_points / days_played)` built by
`calculate_all_time_rank` (Python float division, exact here). -/
def all_time_rows (users : Users) : List (UserId × Rat) :=
  (eligible_users users).map
    (fun p => (p.1, (p.2.total_points : Rat) / (p.2.days_played : Rat)))

/-- The all-time rows sorted by average, descending. -/
def all_time_ranked (users : Users) : List (UserId × Rat) :=
  sortByKeyDesc (fun r => r.2) (all_time_rows users)

/-- The 1-based position scan `for i, (uid, _) in enumerate(rows, start=1)`. -/
def rankScan (uid : UserId) : Nat → List (UserId × α) → Option Nat
  | _, [] => none
  | i, r :: rest => if r.1 = uid then some i else rankScan uid (i + 1) rest

/-- `calculate_all_time_rank(users, user_id)`: position of the user in the
sorted eligible rows, with the `(len(rows), len(rows))` fallback when the user
is absent. -/
def calculate_all_time_rank (users : Users) (uid : UserId) : Nat × Nat :=
  match rankScan uid 1 (all_time_ranked users) with
  | some i => (i, (all_time_ranked users).length)
  | none => ((all_time_ranked users).length, (all_time_ranked users).length)

/-- Python's built-in `round`: nearest integer, ties to even. -/
def pyRound (q : Rat) : Int :=
  if q - q.floor < 1 / 2 then q.floor
  else if (1 : Rat) / 2 < q - q.floor then q.floor + 1
  else if q.floor % 2 = 0 then q.floor else q.floor + 1

/-- Per-user accumulator of a period scan: raw total and played-day count. -/
structure PeriodTotal where
  total : Int
  days : Nat
deriving DecidableEq

/-- Does a day key fall outside the (optionally unbounded) inclusive range? -/
def outOfRange (start_d end_d : Option Day) (d : Day) : Bool :=
  (match start_d with | some s => decide (d < s) | none => false) ||
  (match end_d with | some e => decide (e < d) | none => false)

/-- Modelled from the spec: `compute_period_rows` is called by the weekly
roundup, the monthly leaderboard, the leaderboard view and the rivalry alert,
but its definition is absent from the provided source. Per §4.3 of the
specification it is a single pass over ledger days within the inclusive range
(unbounded on an absent end) accumulating each user's raw total and
played-day count — exactly the loop inlined in `calculate_period_rank`, which
is present in the source. -/
def compute_period_rows (scores : Scores) (start_d end_d : Option Day) :
    List (UserId × PeriodTotal) :=
  scores.foldl
    (fun totals p =>
      if outOfRange start_d end_d p.1 then totals
      else
        p.2.foldl
          (fun ts q =>
            let t := (getk q.1 ts).getD ⟨0, 0⟩
            setk q.1 ⟨t.total + q.2.score, t.days + 1⟩ ts)
          totals)
    []

/-- The rows `(uid, round(total / days))` built by `calculate_period_rank`
for users with at least one played day in the range. -/
def period_rows (scores : Scores) (start_d end_d : Day) : List (UserId × Int) :=
  ((compute_period_rows scores (some start_d) (some end_d)).filter
      (fun p => 0 < p.2.days)).map
    (fun p => (p.1, pyRound ((p.2.total : Rat) / (p.2.days : Rat))))

/-- The period rows sorted by rounded average, descending. -/
def period_ranked (scores : Scores) (start_d end_d : Day) : List (UserId × Int) :=
  sortByKeyDesc (fun r => r.2) (period_rows scores start_d end_d)

/-- `calculate_period_rank(scores, user_id, start_d, end_d)`: position of the
user in the sorted period rows; `(None, len(rows))` when the user is absent. -/
def calculate_period_rank (scores : Scores) (uid : UserId) (start_d end_d : Day) :
    Option Nat × Nat :=
  match rankScan uid 1 (period_ranked scores start_d end_d) with
  | some i => (some i, (period_ranked scores start_d end_d).length)
  | none => (none, (period_ranked scores start_d end_d).length)

/-! ### Rivalry detector -/

/-- One reported rivalry `(uid_a, score_a, uid_b, score_b)`: the leader and
the chaser of the closest adjacent pair. -/
abbrev Rival := UserId × Int × UserId × Int

/-- The gap of a reported rivalry: `score_a - score_b`. -/
def gapOf (r : Rival) : Int := r.2.1 - r.2.2.2

/-- Adjacent pairs `leaderboard[i], leaderboard[i+1]` of the sorted list. -/
def adjPairs (l : List (UserId × Int)) : List ((UserId × Int) × (UserId × Int)) :=
  l.zip l.tail

/-- The gap `score_a - score_b` of an adjacent pair. -/
def pdiff (p : (UserId × Int) × (UserId × Int)) : Int := p.1.2 - p.2.2

/-- Does the adjacent pair beat the best pair found so far? Matches the
condition `diff <= THRESHOLD and (best_diff is None or diff < best_diff)`. -/
def betterRival (threshold : Int) (best : Option Rival)
    (p : (UserId × Int) × (UserId × Int)) : Bool :=
  decide (pdiff p ≤ threshold) &&
    (match best with
     | none => true
     | some b => decide (pdiff p < gapOf b))

/-- The scan of `do_rivalry_alert` over adjacent leaderboard pairs: skip
non-positive gaps, keep the pair with the smallest positive gap within the
threshold. -/
def scanRivals (threshold : Int) :
    Option Rival → List ((UserId × Int) × (UserId × Int)) → Option Rival
  | best, [] => best
  | best, p :: rest =>
      if pdiff p ≤ 0 then scanRivals threshold best rest
      else if betterRival threshold best p then
        scanRivals threshold (some (p.1.1, p.1.2, p.2.1, p.2.2)) rest
      else scanRivals threshold best rest

/-- The week-so-far totals used by the rivalry alert: `compute_period_rows`
over `[monday..today]`. -/
def rival_totals (scores : Scores) (mon today : Day) : List (UserId × PeriodTotal) :=
  compute_period_rows scores (some mon) (some today)

/-- The rivalry leaderboard: users with at least one played day, raw weekly
totals, sorted descending. -/
def rival_leaderboard (scores : Scores) (mon today : Day) : List (UserId × Int) :=
  sortByKeyDesc (fun r => r.2)
    (((rival_totals scores mon today).filter (fun p => 0 < p.2.days)).map
      (fun p => (p.1, p.2.total)))

/-- The decision core of `do_rivalry_alert`: bail out when the current-period
population is below the minimum, otherwise report the adjacent pair with the
smallest strictly positive gap within the threshold, if any. -/
def do_rivalry_alert (scores : Scores) (mon today : Day) (threshold : Int)
    (minPlayers : Nat) : Option Rival :=
  if (rival_totals scores mon today).length < minPlayers then none
  else scanRivals threshold none (adjPairs (rival_leaderboard scores mon today))

/-! ### Scheduler -/

/-- Per-job slice of the settings document: the alert toggle, the configured
`HH:MM` string, and the persisted `last_run` day key (`none` models `null`). -/
structure JobState where
  alertOn : Bool
  time : String
  lastRun : Option Day
deriving DecidableEq

/-- The slice of the settings document the scheduler reads and writes. -/
structure Settings where
  enabled : Bool
  dailyPost : JobState
  dailyScoreboard : JobState
  weeklyRoundup : JobState
  rivalry : JobState
  monthlyLeaderboard : JobState
deriving DecidableEq

/-- The five scheduled jobs of `scheduler_tick`. -/
inductive Job
  | dailyPost
  | dailyScoreboard
  | weeklyRoundup
  | rivalry
  | monthlyLeaderboard
deriving DecidableEq

/-- Which flags fired on one tick. -/
structure FiredSet where
  dailyPost : Bool
  dailyScoreboard : Bool
  weeklyRoundup : Bool
  rivalry : Bool
  monthlyLeaderboard : Bool
deriving DecidableEq

/-- One tick's wall-clock inputs: the `HH:MM` string, the weekday
(`0 = Monday .. 6 = Sunday`), the day of month, and the day key. -/
structure TickIn where
  hm : String
  weekday : Nat
  dayOfMonth : Nat
  today : Day
deriving DecidableEq

/-- The calendar gate of each job: weekly roundup only on Sundays, monthly
leaderboard only on the 1st, no gate otherwise. -/
def gateOf (j : Job) (t : TickIn) : Bool :=
  match j with
  | .weeklyRoundup => t.weekday == 6
  | .monthlyLeaderboard => t.dayOfMonth == 1
  | _ => true

/-- Project a job's slice out of the settings. -/
def jobState (s : Settings) : Job → JobState
  | .dailyPost => s.dailyPost
  | .dailyScoreboard => s.dailyScoreboard
  | .weeklyRoundup => s.weeklyRoundup
  | .rivalry => s.rivalry
  | .monthlyLeaderboard => s.monthlyLeaderboard

/-- One job's guard and update inside `scheduler_tick`: fire iff the alert is
enabled, the current `HH:MM` equals the configured time, the calendar gate
holds, and `last_run` differs from today's key; on fire, stamp `last_run`. -/
def runJob (js : JobState) (g : Bool) (t : TickIn) : JobState × Bool :=
  if js.alertOn && (t.hm == js.time) && g && !(js.lastRun == some t.today) then
    ({ js with lastRun := some t.today }, true)
  else (js, false)

/-- The body of `scheduler_tick`: do nothing when the bot is disabled,
otherwise evaluate all five job guards against the loaded settings and stamp
`last_run` for each job that fired. -/
def scheduler_tick (s : Settings) (t : TickIn) : Settings × FiredSet :=
  if s.enabled then
    let dp := runJob s.dailyPost true t
    let ds := runJob s.dailyScoreboard true t
    let wr := runJob s.weeklyRoundup (t.weekday == 6) t
    let rv := runJob s.rivalry true t
    let ml := runJob s.monthlyLeaderboard (t.dayOfMonth == 1) t
    ({ s with
        dailyPost := dp.1
        dailyScoreboard := ds.1
        weeklyRoundup := wr.1
        rivalry := rv.1
        monthlyLeaderboard := ml.1 },
     { dailyPost := dp.2
       dailyScoreboard := ds.2
       weeklyRoundup := wr.2
       rivalry := rv.2
       monthlyLeaderboard := ml.2 })
  else (s, ⟨false, false, false, false, false⟩)

/-- Did job `j` fire in this tick's flag set? -/
def firedOf (f : FiredSet) : Job → Bool
  | .dailyPost => f.dailyPost
  | .dailyScoreboard => f.dailyScoreboard
  | .weeklyRoundup => f.weeklyRoundup
  | .rivalry => f.rivalry
  | .monthlyLeaderboard => f.monthlyLeaderboard

/-- The fire condition of job `j` on tick `t`, read off the loaded settings:
bot enabled, alert enabled, `HH:MM` match, calendar gate, and `last_run`
different from the current day key. -/
def fireCond (s : Settings) (j : Job) (t : TickIn) : Bool :=
  s.enabled && (jobState s j).alertOn && (t.hm == (jobState s j).time) &&
    gateOf j t && !((jobState s j).lastRun == some t.today)

/-- How many times job `j` fires over a sequence of ticks, threading the
persisted settings. -/
def countFires (s : Settings) (ts : List TickIn) (j : Job) : Nat :=
  match ts with
  | [] => 0
  | t :: rest =>
      (if firedOf (scheduler_tick s t).2 j then 1 else 0) +
        countFires (scheduler_tick s t).1 rest j

/-- Single-job replay of the tick sequence, used to reason about one job's
`last_run` in isolation. -/
def jobSteps (enabled : Bool) (j : Job) : JobState → List TickIn → Nat
  | _, [] => 0
  | js, t :: rest =>
      let r := if enabled then runJob js (gateOf j t) t else (js, false)
      (if r.2 then 1 else 0) + jobSteps enabled j r.1 rest

/-! ### Stats repair -/

/-- The accumulation pass of `repair_stats` over one day bucket: create the
user lazily, add the score to the total, and apply the strict PB/low
updates. -/
def repairAccum (acc : Users) (dkey : Day) (bucket : DayBucket) : Users :=
  bucket.foldl
    (fun us q =>
      updateUser (setdefault q.1 default_user_stats us) q.1
        (fun st =>
          let st1 := { st with total_points := st.total_points + q.2.score }
          let st2 :=
            if st1.personal_best.score < q.2.score then
              { st1 with personal_best := { score := q.2.score, date := some dkey } }
            else st1
          if q.2.score < st2.personal_low.score then
            { st2 with personal_low := { score := q.2.score, date := some dkey } }
          else st2))
    acc

/-- The finalize pass of `repair_stats`: `days_played` becomes the count of
distinct played days and `best_streak` becomes the current streak of the
ledger being repaired. -/
def repairFinalize (today : Day) (scores : Scores) (uid : UserId) (st : UserStats) :
    UserStats :=
  { st with
    days_played := ((playedDays scores uid).dedup).length
    best_streak := calculate_current_streak scores uid today }

/-- `repair_stats`: rebuild the users document from the ledger alone — totals
and PB/low from the bucket scan, then `days_played` as the count of distinct
played days and `best_streak` as `calculate_current_streak` of the ledger
(the streak ending today, not the historical maximum). `/rescan` finalizes
`best_streak` the same way after rebuilding the ledger from channel
history. -/
def repair_stats (today : Day) (scores : Scores) : Users :=
  let rebuilt := scores.foldl (fun acc p => repairAccum acc p.1 p.2) []
  rebuilt.map (fun p => (p.1, repairFinalize today scores p.1 p.2))

/-! ### Association-list lemmas -/

theorem getk_setk_self [DecidableEq κ] (k : κ) (v : β) (l : List (κ × β)) :
    getk k (setk k v l) = some v := by
  induction l with
  | nil => simp [getk, setk]
  | cons p rest ih =>
      by_cases h : k = p.1
      · simp [getk, setk, h]
      · simp [getk, setk, h, ih]

theorem getk_setk_ne [DecidableEq κ] {k k2 : κ} (h : k ≠ k2) (v : β) (l : List (κ × β)) :
    getk k (setk k2 v l) = getk k l := by
  induction l with
  | nil => simp [getk, setk, h]
  | cons p rest ih =>
      by_cases h2 : k2 = p.1
      · subst h2
        simp [getk, setk, h]
      · by_cases h3 : k = p.1 <;> simp [getk, setk, h2, h3, ih]

theorem getk_append_of_none [DecidableEq κ] {k : κ} {l1 : List (κ × β)}
    (h : getk k l1 = none) (l2 : List (κ × β)) :
    getk k (l1 ++ l2) = getk k l2 := by
  induction l1 with
  | nil => simp
  | cons p rest ih =>
      by_cases h2 : k = p.1
      · simp [getk, h2] at h
      · simp [getk, h2] at h ⊢
        exact ih h

theorem getk_append_of_some [DecidableEq κ] {k : κ} {l1 : List (κ × β)} {v : β}
    (h : getk k l1 = some v) (l2 : List (κ × β)) :
    getk k (l1 ++ l2) = some v := by
  induction l1 with
  | nil => simp [getk] at h
  | cons p rest ih =>
      by_cases h2 : k = p.1
      · simp [getk, h2] at h ⊢
        exact h
      · simp [getk, h2] at h ⊢
        exact ih h

theorem setdefault_of_some [DecidableEq κ] {k : κ} {v : β} {l : List (κ × β)}
    (h : getk k l = some v) (d : β) : setdefault k d l = l := by
  simp [setdefault, h]

theorem setdefault_of_none [DecidableEq κ] {k : κ} {l : List (κ × β)}
    (h : getk k l = none) (d : β) : setdefault k d l = l ++ [(k, d)] := by
  simp [setdefault, h]

theorem getk_setdefault_self [DecidableEq κ] (k : κ) (d : β) (l : List (κ × β)) :
    getk k (setdefault k d l) = some ((getk k l).getD d) := by
  cases h : getk k l with
  | some v => simp [setdefault_of_some h, h]
  | none =>
      rw [setdefault_of_none h, getk_append_of_none h]
      simp [getk]

theorem getk_setdefault_ne [DecidableEq κ] {k k2 : κ} (h : k ≠ k2) (d : β)
    (l : List (κ × β)) : getk k (setdefault k2 d l) = getk k l := by
  cases h2 : getk k2 l with
  | some v => simp [setdefault_of_some h2]
  | none =>
      rw [setdefault_of_none h2]
      cases h3 : getk k l with
      | some w => exact (getk_append_of_some h3 _)
      | none => rw [getk_append_of_none h3]; simp [getk, h]

theorem getk_updateUser_self (users : Users) (uid : UserId) (f : UserStats → UserStats) :
    getk uid (updateUser users uid f) = (getk uid users).map f := by
  cases h : getk uid users with
  | some st => simp [updateUser, h, getk_setk_self]
  | none => simp [updateUser, h]

theorem getk_updateUser_ne {x uid : UserId} (h : x ≠ uid) (users : Users)
    (f : UserStats → UserStats) :
    getk x (updateUser users uid f) = getk x users := by
  cases h2 : getk uid users with
  | some st => simp [updateUser, h2, getk_setk_ne h]
  | none => simp [updateUser, h2]

theorem getk_update_setdefault (users : Users) (uid : UserId) (d : UserStats)
    (f : UserStats → UserStats) :
    getk uid (updateUser (setdefault uid d users) uid f) =
      some (f ((getk uid users).getD d)) := by
  rw [getk_updateUser_self, getk_setdefault_self]
  rfl

theorem getk_update_setdefault_ne {x uid : UserId} (h : x ≠ uid) (users : Users)
    (d : UserStats) (f : UserStats → UserStats) :
    getk x (updateUser (setdefault uid d users) uid f) = getk x users := by
  rw [getk_updateUser_ne h, getk_setdefault_ne h]

/-! ### Field lemmas for the per-user update -/

theorem ingestStats_total (score : Nat) (dkey : Day) (cur : Nat)
    (ex : Option ScoreEntry) (st : UserStats) :
    (ingestStats score dkey cur ex st).total_points =
      st.total_points - (((ex.map (fun e => (e.score : Int)))).getD 0) + score := by
  cases ex <;> simp [ingestStats] <;> split <;> (try split) <;> simp

theorem ingestStats_days (score : Nat) (dkey : Day) (cur : Nat)
    (ex : Option ScoreEntry) (st : UserStats) :
    (ingestStats score dkey cur ex st).days_played =
      match ex with
      | some _ => st.days_played
      | none => st.days_played + 1 := by
  cases ex <;> simp [ingestStats] <;> split <;> (try split) <;> simp

theorem ingestStats_pb (score : Nat) (dkey : Day) (cur : Nat)
    (ex : Option ScoreEntry) (st : UserStats) :
    (ingestStats score dkey cur ex st).personal_best =
      if st.personal_best.score < score then ⟨score, some dkey⟩
      else st.personal_best := by
  cases ex <;> simp [ingestStats] <;> split <;> (try split) <;> simp_all

theorem ingestStats_low (score : Nat) (dkey : Day) (cur : Nat)
    (ex : Option ScoreEntry) (st : UserStats) :
    (ingestStats score dkey cur ex st).personal_low =
      if score < st.personal_low.score then ⟨score, some dkey⟩
      else st.personal_low := by
  cases ex <;> simp [ingestStats] <;> split <;> (try split) <;> simp_all

theorem ingestStats_best (score : Nat) (dkey : Day) (cur : Nat)
    (ex : Option ScoreEntry) (st : UserStats) :
    (ingestStats score dkey cur ex st).best_streak = max st.best_streak cur := by
  cases ex <;> simp [ingestStats] <;> split <;> (try split) <;> simp

theorem totalOf_getD (users : Users) (uid : UserId) :
    totalOf users uid = ((getk uid users).getD default_user_stats).total_points := by
  cases h : getk uid users <;> simp [totalOf, h, default_user_stats]

theorem daysOf_getD (users : Users) (uid : UserId) :
    daysOf users uid = ((getk uid users).getD default_user_stats).days_played := by
  cases h : getk uid users <;> simp [daysOf, h, default_user_stats]

theorem bestOf_getD (users : Users) (uid : UserId) :
    bestOf users uid = ((getk uid users).getD default_user_stats).best_streak := by
  cases h : getk uid users <;> simp [bestOf, h, default_user_stats]

/-- Shape of an accepted ingestion when the user already has a same-day entry:
the ledger gets the replaced bucket and the aggregate the composed update. -/
theorem ingest_overwrite_shape (maxScore : Nat) (today dkey : Day) (msgTime : Int)
    (uid : UserId) (score : Nat) (scores : Scores) (users : Users)
    (bucket : DayBucket) (old : ScoreEntry)
    (hmax : score ≤ maxScore) (hb : getk dkey scores = some bucket)
    (hold : getk uid bucket = some old) :
    on_message_ingest maxScore today dkey msgTime uid score scores users =
      (setk dkey (setk uid ⟨score, msgTime⟩ bucket) scores,
       updateUser (setdefault uid default_user_stats users) uid
         (ingestStats score dkey
           (calculate_current_streak
             (setk dkey (setk uid ⟨score, msgTime⟩ bucket) scores) uid today)
           (some old)),
       Outcome.recordedOverwrite) := by
  have hng : ¬ score > maxScore := by omega
  have hs1 : setdefault dkey ([] : DayBucket) scores = scores := setdefault_of_some hb _
  simp [on_message_ingest, hng, hs1, hb, hold]

/-- Shape of a rejected ingestion: both documents come back untouched. -/
theorem ingest_rejected_shape (maxScore : Nat) (today dkey : Day) (msgTime : Int)
    (uid : UserId) (score : Nat) (scores : Scores) (users : Users)
    (h : maxScore < score) :
    on_message_ingest maxScore today dkey msgTime uid score scores users =
      (scores, users, Outcome.rejectedTooHigh) := by
  simp [on_message_ingest, h]

/-- Shape of the aggregates document after an accepted ingestion. -/
theorem ingest_users_shape (maxScore : Nat) (today dkey : Day) (msgTime : Int)
    (uid : UserId) (score : Nat) (scores : Scores) (users : Users)
    (hmax : score ≤ maxScore) :
    (on_message_ingest maxScore today dkey msgTime uid score scores users).2.1 =
      updateUser (setdefault uid default_user_stats users) uid
        (ingestStats score dkey
          (calculate_current_streak
            (on_message_ingest maxScore today dkey msgTime uid score scores users).1 uid today)
          (getk uid ((getk dkey (setdefault dkey [] scores)).getD []))) := by
  have hng : ¬ score > maxScore := by omega
  simp [on_message_ingest, hng]

theorem totalOf_update_setdefault (users : Users) (uid : UserId)
    (f : UserStats → UserStats) :
    totalOf (updateUser (setdefault uid default_user_stats users) uid f) uid =
      (f ((getk uid users).getD default_user_stats)).total_points := by
  rw [totalOf, getk_update_setdefault]
  rfl

theorem daysOf_update_setdefault (users : Users) (uid : UserId)
    (f : UserStats → UserStats) :
    daysOf (updateUser (setdefault uid default_user_stats users) uid f) uid =
      (f ((getk uid users).getD default_user_stats)).days_played := by
  rw [daysOf, getk_update_setdefault]
  rfl

theorem bestOf_update_setdefault (users : Users) (uid : UserId)
    (f : UserStats → UserStats) :
    bestOf (updateUser (setdefault uid default_user_stats users) uid f) uid =
      (f ((getk uid users).getD default_user_stats)).best_streak := by
  rw [bestOf, getk_update_setdefault]
  rfl

theorem pbOf_update_setdefault (users : Users) (uid : UserId)
    (f : UserStats → UserStats) :
    pbOf (updateUser (setdefault uid default_user_stats users) uid f) uid =
      some ((f ((getk uid users).getD default_user_stats)).personal_best) := by
  rw [pbOf, getk_update_setdefault]
  rfl

theorem lowOf_update_setdefault (users : Users) (uid : UserId)
    (f : UserStats → UserStats) :
    lowOf (updateUser (setdefault uid default_user_stats users) uid f) uid =
      some ((f ((getk uid users).getD default_user_stats)).personal_low) := by
  rw [lowOf, getk_update_setdefault]
  rfl

theorem bestOf_update_setdefault_ne {x uid : UserId} (h : x ≠ uid) (users : Users)
    (d : UserStats) (f : UserStats → UserStats) :
    bestOf (updateUser (setdefault uid d users) uid f) x = bestOf users x := by
  unfold bestOf
  rw [getk_update_setdefault_ne h]

theorem totalOf_update_setdefault_ne {x uid : UserId} (h : x ≠ uid) (users : Users)
    (d : UserStats) (f : UserStats → UserStats) :
    totalOf (updateUser (setdefault uid d users) uid f) x = totalOf users x := by
  unfold totalOf
  rw [getk_update_setdefault_ne h]

/-- C1: for every ingestion by a user who already has an entry for the same
day, the new entry replaces the old one, `total_points` changes by exactly
`newScore - oldScore`, `days_played` is unchanged, and the outcome is the
same-day overwrite. -/
theorem claim1_same_day_overwrite (maxScore : Nat) (today dkey : Day) (msgTime : Int)
    (uid : UserId) (score : Nat) (scores : Scores) (users : Users)
    (bucket : DayBucket) (old : ScoreEntry)
    (hmax : score ≤ maxScore) (hb : getk dkey scores = some bucket)
    (hold : getk uid bucket = some old) :
    (on_message_ingest maxScore today dkey msgTime uid score scores users).2.2 =
        Outcome.recordedOverwrite ∧
    getk uid ((getk dkey
        (on_message_ingest maxScore today dkey msgTime uid score scores users).1).getD [])
        = some ⟨score, msgTime⟩ ∧
    totalOf (on_message_ingest maxScore today dkey msgTime uid score scores users).2.1 uid
        = totalOf users uid + score - old.score ∧
    daysOf (on_message_ingest maxScore today dkey msgTime uid score scores users).2.1 uid
        = daysOf users uid := by
  rw [ingest_overwrite_shape maxScore today dkey msgTime uid score scores users bucket old
    hmax hb hold]
  refine ⟨rfl, ?_, ?_, ?_⟩
  · rw [getk_setk_self]
    simp [getk_setk_self]
  · rw [totalOf, getk_update_setdefault]
    simp only [Option.map_some', Option.getD_some, ingestStats_total]
    rw [totalOf_getD]
    omega
  · rw [daysOf, getk_update_setdefault]
    simp only [Option.map_some', Option.getD_some, ingestStats_days]
    rw [daysOf_getD]

/-- Witness for C1: ingesting 900 after 850 on day 5 yields the overwrite
outcome, raises the total by exactly 50, keeps `days_played`, sets the
personal best to `(900, day 5)`, and re-ingesting an identical 850 leaves the
total unchanged. -/
theorem claim1_same_day_overwrite_witness :
    (on_message_ingest 1000 5 5 0 "A" 900 [((5 : Int), [("A", ⟨850, 0⟩)])]
        [("A", ⟨850, 1, 1, ⟨850, some 5⟩, ⟨850, some 5⟩⟩)]).2.2 =
        Outcome.recordedOverwrite ∧
    totalOf (on_message_ingest 1000 5 5 0 "A" 900 [((5 : Int), [("A", ⟨850, 0⟩)])]
        [("A", ⟨850, 1, 1, ⟨850, some 5⟩, ⟨850, some 5⟩⟩)]).2.1 "A"
      = totalOf [("A", (⟨850, 1, 1, ⟨850, some 5⟩, ⟨850, some 5⟩⟩ : UserStats))] "A" + 900 - 850 ∧
    daysOf (on_message_ingest 1000 5 5 0 "A" 900 [((5 : Int), [("A", ⟨850, 0⟩)])]
        [("A", ⟨850, 1, 1, ⟨850, some 5⟩, ⟨850, some 5⟩⟩)]).2.1 "A" = 1 ∧
    pbOf (on_message_ingest 1000 5 5 0 "A" 900 [((5 : Int), [("A", ⟨850, 0⟩)])]
        [("A", ⟨850, 1, 1, ⟨850, some 5⟩, ⟨850, some 5⟩⟩)]).2.1 "A" = some ⟨900, some 5⟩ ∧
    totalOf (on_message_ingest 1000 5 5 0 "A" 850 [((5 : Int), [("A", ⟨850, 0⟩)])]
        [("A", ⟨850, 1, 1, ⟨850, some 5⟩, ⟨850, some 5⟩⟩)]).2.1 "A"
      = totalOf [("A", (⟨850, 1, 1, ⟨850, some 5⟩, ⟨850, some 5⟩⟩ : UserStats))] "A" := by
  refine ⟨(claim1_same_day_overwrite 1000 5 5 0 "A" 900 _ _ [("A", ⟨850, 0⟩)] ⟨850, 0⟩
      (by decide) (by decide) (by decide)).1,
    (claim1_same_day_overwrite 1000 5 5 0 "A" 900 _ _ [("A", ⟨850, 0⟩)] ⟨850, 0⟩
      (by decide) (by decide) (by decide)).2.2.1, by decide, by decide, by decide⟩

/-- C2: a score strictly above `MAX_SCORE` is rejected with both documents
returned untouched; a score exactly equal to `MAX_SCORE` is accepted and
recorded in the day's bucket. -/
theorem claim2_max_score_boundary (maxScore : Nat) (today dkey : Day) (msgTime : Int)
    (uid : UserId) (score : Nat) (scores : Scores) (users : Users) :
    (maxScore < score →
      on_message_ingest maxScore today dkey msgTime uid score scores users =
        (scores, users, Outcome.rejectedTooHigh)) ∧
    (score = maxScore →
      (on_message_ingest maxScore today dkey msgTime uid score scores users).2.2 ≠
          Outcome.rejectedTooHigh ∧
      getk uid ((getk dkey
          (on_message_ingest maxScore today dkey msgTime uid score scores users).1).getD [])
        = some ⟨score, msgTime⟩) := by
  constructor
  · intro h
    simp [on_message_ingest, h]
  · intro h
    have hng : ¬ score > maxScore := by omega
    constructor
    · simp only [on_message_ingest, gt_iff_lt, if_neg hng]
      cases hex : getk uid ((getk dkey (setdefault dkey [] scores)).getD []) <;>
        simp [hex]
    · simp only [on_message_ingest, gt_iff_lt, if_neg hng]
      rw [getk_setk_self]
      simp [getk_setk_self]

/-- Witness for C2: with `MAX_SCORE = 1000`, a score of 1001 bounces with both
documents unchanged and a score of 1000 is recorded. -/
theorem claim2_max_score_boundary_witness :
    on_message_ingest 1000 0 0 0 "A" 1001 [] [] = ([], [], Outcome.rejectedTooHigh) ∧
    ((on_message_ingest 1000 0 0 0 "A" 1000 [] []).2.2 ≠ Outcome.rejectedTooHigh ∧
      getk "A" ((getk 0 (on_message_ingest 1000 0 0 0 "A" 1000 [] []).1).getD [])
        = some ⟨1000, 0⟩) :=
  ⟨(claim2_max_score_boundary 1000 0 0 0 "A" 1001 [] []).1 (by decide),
   (claim2_max_score_boundary 1000 0 0 0 "A" 1000 [] []).2 (by decide)⟩

/-- C5: on every accepted ingestion the personal best is replaced by
`(score, day)` exactly when the score strictly exceeds the stored best (a tie
keeps the earlier record), the personal low is replaced exactly when the score
is strictly below the stored low, and — because the low is seeded to the
sentinel `100000`, larger than any valid score — a user's first accepted
submission always becomes their personal low. -/
theorem claim5_strict_pb_low (maxScore : Nat) (today dkey : Day) (msgTime : Int)
    (uid : UserId) (score : Nat) (scores : Scores) (users : Users)
    (hmax : score ≤ maxScore) :
    (∀ st, getk uid users = some st →
      pbOf (on_message_ingest maxScore today dkey msgTime uid score scores users).2.1 uid =
        some (if st.personal_best.score < score then ⟨score, some dkey⟩
          else st.personal_best) ∧
      lowOf (on_message_ingest maxScore today dkey msgTime uid score scores users).2.1 uid =
        some (if score < st.personal_low.score then ⟨score, some dkey⟩
          else st.personal_low)) ∧
    (getk uid users = none → maxScore < 100000 →
      lowOf (on_message_ingest maxScore today dkey msgTime uid score scores users).2.1 uid =
        some ⟨score, some dkey⟩) := by
  rw [ingest_users_shape maxScore today dkey msgTime uid score scores users hmax]
  constructor
  · intro st hst
    rw [pbOf_update_setdefault, lowOf_update_setdefault, ingestStats_pb, ingestStats_low, hst]
    exact ⟨rfl, rfl⟩
  · intro hst hsent
    rw [lowOf_update_setdefault, ingestStats_low, hst]
    have hlt : score < default_user_stats.personal_low.score := by
      simp only [default_user_stats]
      omega
    simp [hlt]

/-- Witness for C5: a user with best 850 and low 850 who posts 900 on day 5
gets best `(900, day 5)` and an unchanged low; a brand-new user posting 420
gets low `(420, day 5)`. -/
theorem claim5_strict_pb_low_witness :
    (pbOf (on_message_ingest 1000 5 5 0 "A" 900 []
        [("A", ⟨850, 1, 1, ⟨850, some 4⟩, ⟨850, some 4⟩⟩)]).2.1 "A" = some ⟨900, some 5⟩ ∧
      lowOf (on_message_ingest 1000 5 5 0 "A" 900 []
        [("A", ⟨850, 1, 1, ⟨850, some 4⟩, ⟨850, some 4⟩⟩)]).2.1 "A" = some ⟨850, some 4⟩) ∧
    lowOf (on_message_ingest 1000 5 5 0 "B" 420 [] []).2.1 "B" = some ⟨420, some 5⟩ := by
  refine ⟨?_, ?_⟩
  · have h := (claim5_strict_pb_low 1000 5 5 0 "A" 900 []
      [("A", ⟨850, 1, 1, ⟨850, some 4⟩, ⟨850, some 4⟩⟩)] (by decide)).1
      ⟨850, 1, 1, ⟨850, some 4⟩, ⟨850, some 4⟩⟩ (by decide)
    simpa using h
  · exact (claim5_strict_pb_low 1000 5 5 0 "B" 420 [] [] (by decide)).2 (by decide) (by decide)

/-! ### Streak characterization: the fuel given to `streakFrom` never runs
out, so `calculate_current_streak` really is the count of consecutive played
days ending today. -/

theorem streakFrom_spec (played : List Day) :
    ∀ fuel d,
      (∀ k : Nat, k < streakFrom played fuel d → (d - k) ∈ played) ∧
      (streakFrom played fuel d < fuel →
        (d - (streakFrom played fuel d : Int)) ∉ played) ∧
      streakFrom played fuel d ≤ fuel := by
  intro fuel
  induction fuel with
  | zero => intro d; simp [streakFrom]
  | succ n ih =>
      intro d
      by_cases hd : d ∈ played
      · have h3 := ih (d - 1)
        simp only [streakFrom, if_pos hd]
        refine ⟨?_, ?_, by omega⟩
        · intro k hk
          cases k with
          | zero => simpa using hd
          | succ j =>
              have hj : j < streakFrom played n (d - 1) := by omega
              have hmem := h3.1 j hj
              have harith : d - ((j + 1 : Nat) : Int) = (d - 1) - (j : Nat) := by
                push_cast
                ring
              rw [harith]
              exact hmem
        · intro hlt
          have hlt2 : streakFrom played n (d - 1) < n := by omega
          have hnm := h3.2.1 hlt2
          have harith : d - ((streakFrom played n (d - 1) + 1 : Nat) : Int) =
              (d - 1) - (streakFrom played n (d - 1) : Nat) := by
            push_cast
            ring
          rw [harith]
          exact hnm
      · simp [streakFrom, if_neg hd, hd]

/-- Pigeonhole: a run of `n` consecutive days all present in a duplicate-free
list is no longer than the list. -/
theorem streak_le_length {played : List Day} (hnd : played.Nodup) {d : Int} {n : Nat}
    (h : ∀ k : Nat, k < n → (d - k) ∈ played) : n ≤ played.length := by
  classical
  have hmaps : ∀ k ∈ Finset.range n, (fun k : Nat => d - (k : Int)) k ∈ played.toFinset := by
    intro k hk
    rw [List.mem_toFinset]
    exact h k (Finset.mem_range.mp hk)
  have hinj : Set.InjOn (fun k : Nat => d - (k : Int)) (Finset.range n) := by
    intro a _ b _ hab
    have h2 : d - (a : Int) = d - (b : Int) := hab
    omega
  have hcard := Finset.card_le_card_of_injOn _ hmaps hinj
  rw [Finset.card_range] at hcard
  calc n ≤ played.toFinset.card := hcard
    _ = played.dedup.length := rfl
    _ = played.length := by rw [List.dedup_eq_self.mpr hnd]

/-- `calculate_current_streak` returns the length of the maximal run of
consecutive played days ending `today`: every day in the run is played, and
the day just before the run is not. -/
theorem calculate_current_streak_spec (scores : Scores) (uid : UserId) (today : Day) :
    (∀ k : Nat, k < calculate_current_streak scores uid today →
      (today - k) ∈ playedDays scores uid) ∧
    (today - (calculate_current_streak scores uid today : Int)) ∉ playedDays scores uid := by
  unfold calculate_current_streak
  by_cases he : ((playedDays scores uid).dedup).isEmpty
  · have hnil : playedDays scores uid = [] := by
      rw [List.isEmpty_iff] at he
      exact (List.dedup_eq_nil _).mp he
    simp [he, hnil]
  · simp only [if_neg he]
    set played := (playedDays scores uid).dedup with hp
    have hspec := streakFrom_spec played (played.length + 1) today
    have hnd : played.Nodup := List.nodup_dedup _
    have hle : streakFrom played (played.length + 1) today ≤ played.length :=
      streak_le_length hnd hspec.1
    have hlt : streakFrom played (played.length + 1) today < played.length + 1 := by omega
    have hnotmem := hspec.2.1 hlt
    constructor
    · intro k hk
      exact List.mem_dedup.mp (hspec.1 k hk)
    · intro hmem
      exact hnotmem (List.mem_dedup.mpr hmem)

/-- Single-step monotonicity: no ingestion ever lowers any user's stored
`best_streak`. -/
theorem bestOf_ingest_mono (maxScore : Nat) (today dkey : Day) (msgTime : Int)
    (uid : UserId) (score : Nat) (scores : Scores) (users : Users) (x : UserId) :
    bestOf users x ≤
      bestOf (on_message_ingest maxScore today dkey msgTime uid score scores users).2.1 x := by
  by_cases hrej : maxScore < score
  · rw [ingest_rejected_shape maxScore today dkey msgTime uid score scores users hrej]
  · have hmax : score ≤ maxScore := by omega
    rw [ingest_users_shape maxScore today dkey msgTime uid score scores users hmax]
    by_cases hx : x = uid
    · subst hx
      rw [bestOf_update_setdefault, ingestStats_best, bestOf_getD]
      omega
    · rw [bestOf_update_setdefault_ne hx]

/-- Monotonicity across a whole sequence of submissions. -/
theorem bestOf_applyAll_mono (maxScore : Nat) (subs : List Submission) :
    ∀ scores users x,
      bestOf users x ≤ bestOf (applyAll maxScore subs (scores, users)).2 x := by
  induction subs with
  | nil => intro scores users x; simp [applyAll]
  | cons sub rest ih =>
      intro scores users x
      calc bestOf users x ≤
          bestOf (on_message_ingest maxScore sub.today sub.dkey sub.msgTime sub.uid
            sub.score scores users).2.1 x :=
            bestOf_ingest_mono maxScore sub.today sub.dkey sub.msgTime sub.uid
              sub.score scores users x
        _ ≤ _ := ih _ _ x

/-- C8: a user's stored `best_streak` never decreases across any sequence of
ingestions; after each accepted ingestion it equals the maximum of its old
value and the current streak of the updated ledger; and the current streak is
exactly the count of consecutive played days ending today (each of the last
`streak` days is played, the day before that run is not). -/
theorem claim8_best_streak_monotone (maxScore : Nat) (scores : Scores) (users : Users)
    (subs : List Submission) (uid : UserId) (today dkey : Day) (msgTime : Int)
    (score : Nat) :
    bestOf users uid ≤ bestOf (applyAll maxScore subs (scores, users)).2 uid ∧
    (score ≤ maxScore →
      bestOf (on_message_ingest maxScore today dkey msgTime uid score scores users).2.1 uid =
        max (bestOf users uid)
          (calculate_current_streak
            (on_message_ingest maxScore today dkey msgTime uid score scores users).1
            uid today)) ∧
    ((∀ k : Nat, k < calculate_current_streak scores uid today →
        (today - k) ∈ playedDays scores uid) ∧
      (today - (calculate_current_streak scores uid today : Int)) ∉ playedDays scores uid) := by
  refine ⟨bestOf_applyAll_mono maxScore subs scores users uid, ?_,
    calculate_current_streak_spec scores uid today⟩
  intro hmax
  rw [ingest_users_shape maxScore today dkey msgTime uid score scores users hmax]
  rw [bestOf_update_setdefault, ingestStats_best, bestOf_getD]

/-- Witness for C8: a concrete two-day history for user `A`, then an accepted
submission today; the stored best streak becomes `max 2 3 = 3`. -/
theorem claim8_best_streak_monotone_witness :
    bestOf [("A", (⟨100, 2, 2, ⟨60, some 9⟩, ⟨40, some 8⟩⟩ : UserStats))] "A" ≤
      bestOf (applyAll 1000 [⟨10, 10, 0, "A", 50⟩]
        ([((8 : Int), [("A", ⟨40, 0⟩)]), ((9 : Int), [("A", ⟨60, 0⟩)])],
          [("A", ⟨100, 2, 2, ⟨60, some 9⟩, ⟨40, some 8⟩⟩)])).2 "A" ∧
    bestOf (on_message_ingest 1000 10 10 0 "A" 50
        [((8 : Int), [("A", ⟨40, 0⟩)]), ((9 : Int), [("A", ⟨60, 0⟩)])]
        [("A", ⟨100, 2, 2, ⟨60, some 9⟩, ⟨40, some 8⟩⟩)]).2.1 "A" =
      max 2 (calculate_current_streak (on_message_ingest 1000 10 10 0 "A" 50
        [((8 : Int), [("A", ⟨40, 0⟩)]), ((9 : Int), [("A", ⟨60, 0⟩)])]
        [("A", ⟨100, 2, 2, ⟨60, some 9⟩, ⟨40, some 8⟩⟩)]).1 "A" 10) := by
  constructor
  · exact (claim8_best_streak_monotone 1000
      [((8 : Int), [("A", ⟨40, 0⟩)]), ((9 : Int), [("A", ⟨60, 0⟩)])]
      [("A", ⟨100, 2, 2, ⟨60, some 9⟩, ⟨40, some 8⟩⟩)]
      [⟨10, 10, 0, "A", 50⟩] "A" 10 10 0 50).1
  · have h := (claim8_best_streak_monotone 1000
      [((8 : Int), [("A", ⟨40, 0⟩)]), ((9 : Int), [("A", ⟨60, 0⟩)])]
      [("A", ⟨100, 2, 2, ⟨60, some 9⟩, ⟨40, some 8⟩⟩)]
      [⟨10, 10, 0, "A", 50⟩] "A" 10 10 0 50).2.1 (by decide)
    simpa using h

/-! ### Conservation: ledger sums match aggregate totals -/

theorem bucketScoreOf_nil (uid : UserId) : bucketScoreOf [] uid = 0 := rfl

theorem bucketScoreOf_setk_self (b : DayBucket) (uid : UserId) (e : ScoreEntry) :
    bucketScoreOf (setk uid e b) uid = e.score := by
  simp [bucketScoreOf, getk_setk_self]

theorem bucketScoreOf_setk_ne {x uid : UserId} (h : x ≠ uid) (b : DayBucket)
    (e : ScoreEntry) : bucketScoreOf (setk uid e b) x = bucketScoreOf b x := by
  simp [bucketScoreOf, getk_setk_ne h]

theorem userSum_cons (p : Day × DayBucket) (rest : Scores) (uid : UserId) :
    userSum (p :: rest) uid = bucketScoreOf p.2 uid + userSum rest uid := by
  simp [userSum]

theorem userSum_setk_of_some {scores : Scores} {d : Day} {b : DayBucket}
    (h : getk d scores = some b) (b' : DayBucket) (uid : UserId) :
    userSum (setk d b' scores) uid =
      userSum scores uid - bucketScoreOf b uid + bucketScoreOf b' uid := by
  induction scores with
  | nil => simp [getk] at h
  | cons p rest ih =>
      by_cases h2 : d = p.1
      · simp only [getk, if_pos h2, Option.some.injEq] at h
        subst h
        simp only [setk, if_pos h2, userSum_cons]
        ring
      · simp only [getk, if_neg h2] at h
        simp only [setk, if_neg h2, userSum_cons, ih h]
        ring

theorem userSum_setdefault_nil (d : Day) (scores : Scores) (uid : UserId) :
    userSum (setdefault d [] scores) uid = userSum scores uid := by
  cases h : getk d scores with
  | some b => rw [setdefault_of_some h]
  | none =>
      rw [setdefault_of_none h]
      simp [userSum, bucketScoreOf, getk]

/-- One ingestion preserves the conservation invariant between the ledger and
the aggregates. -/
theorem conservation_step (maxScore : Nat) (today dkey : Day) (msgTime : Int)
    (uid : UserId) (score : Nat) (scores : Scores) (users : Users)
    (hinv : ∀ u, userSum scores u = totalOf users u) :
    ∀ u, userSum (on_message_ingest maxScore today dkey msgTime uid score scores users).1 u
       = totalOf (on_message_ingest maxScore today dkey msgTime uid score scores users).2.1 u := by
  intro u
  by_cases hrej : maxScore < score
  · rw [ingest_rejected_shape maxScore today dkey msgTime uid score scores users hrej]
    exact hinv u
  · have hmax : ¬ score > maxScore := hrej
    have hbucket : getk dkey (setdefault dkey ([] : DayBucket) scores) =
        some ((getk dkey scores).getD []) := getk_setdefault_self dkey [] scores
    have hB : (getk dkey (setdefault dkey ([] : DayBucket) scores)).getD [] =
        (getk dkey scores).getD [] := by
      rw [hbucket]
      rfl
    simp only [on_message_ingest, gt_iff_lt, if_neg hmax]
    rw [hB]
    rw [userSum_setk_of_some hbucket, userSum_setdefault_nil]
    by_cases hu : u = uid
    · subst hu
      rw [totalOf_update_setdefault, ingestStats_total, ← totalOf_getD]
      rw [bucketScoreOf_setk_self]
      have hy : ({ score := score, updated_at := msgTime } : ScoreEntry).score = score := rfl
      rw [hy]
      have hx : bucketScoreOf ((getk dkey scores).getD []) u =
          ((getk u ((getk dkey scores).getD [])).map (fun e => (e.score : Int))).getD 0 := rfl
      rw [← hinv u]
      omega
    · rw [totalOf_update_setdefault_ne hu, ← hinv u, bucketScoreOf_setk_ne hu]
      omega

/-- The conservation invariant survives any sequence of submissions. -/
theorem conservation_applyAll (maxScore : Nat) (subs : List Submission) :
    ∀ scores users, (∀ u, userSum scores u = totalOf users u) →
      ∀ u, userSum (applyAll maxScore subs (scores, users)).1 u
         = totalOf (applyAll maxScore subs (scores, users)).2 u := by
  induction subs with
  | nil => intro scores users hinv u; exact hinv u
  | cons sub rest ih =>
      intro scores users hinv u
      exact ih _ _
        (conservation_step maxScore sub.today sub.dkey sub.msgTime sub.uid sub.score
          scores users hinv) u

/-- C3: starting from empty documents, after any sequence of ingestions the
sum of a user's scores over all day buckets of the ledger equals that user's
aggregate `total_points`. -/
theorem claim3_conservation (maxScore : Nat) (subs : List Submission) (uid : UserId) :
    userSum (applyAll maxScore subs ([], [])).1 uid
      = totalOf (applyAll maxScore subs ([], [])).2 uid := by
  exact conservation_applyAll maxScore subs [] []
    (fun u => by simp [userSum, totalOf, getk]) uid

/-! ### Sorting and ranking lemmas -/

theorem mem_insDesc [LinearOrder κ] (key : α → κ) (a x : α) (l : List α) :
    x ∈ insDesc key a l ↔ x = a ∨ x ∈ l := by
  induction l with
  | nil => simp [insDesc]
  | cons b bs ih =>
      by_cases h : key b ≤ key a
      · simp [insDesc, h]
      · simp [insDesc, h, ih]
        tauto

theorem length_insDesc [LinearOrder κ] (key : α → κ) (a : α) (l : List α) :
    (insDesc key a l).length = l.length + 1 := by
  induction l with
  | nil => rfl
  | cons b bs ih =>
      by_cases h : key b ≤ key a
      · simp [insDesc, h]
      · simp [insDesc, h, ih]

theorem mem_sortByKeyDesc [LinearOrder κ] (key : α → κ) (x : α) (l : List α) :
    x ∈ sortByKeyDesc key l ↔ x ∈ l := by
  induction l with
  | nil => simp [sortByKeyDesc]
  | cons a rest ih =>
      simp [sortByKeyDesc, mem_insDesc, ih]

theorem length_sortByKeyDesc [LinearOrder κ] (key : α → κ) (l : List α) :
    (sortByKeyDesc key l).length = l.length := by
  induction l with
  | nil => rfl
  | cons a rest ih => simp [sortByKeyDesc, length_insDesc, ih]

theorem rankScan_eq_none {uid : UserId} {rows : List (UserId × α)}
    (h : uid ∉ rows.map Prod.fst) : ∀ i, rankScan uid i rows = none := by
  induction rows with
  | nil => intro i; rfl
  | cons r rest ih =>
      intro i
      simp only [List.map_cons, List.mem_cons, not_or] at h
      have h1 : ¬ r.1 = uid := fun hh => h.1 hh.symm
      simp [rankScan, h1, ih h.2]

theorem getk_eq_of_mem_nodup [DecidableEq κ] {l : List (κ × β)}
    (hnd : (l.map Prod.fst).Nodup) {p : κ × β} (hp : p ∈ l) :
    getk p.1 l = some p.2 := by
  induction l with
  | nil => simp at hp
  | cons q rest ih =>
      simp only [List.map_cons, List.nodup_cons] at hnd
      rcases List.mem_cons.mp hp with h | h
      · subst h
        simp [getk]
      · have hne : ¬ p.1 = q.1 := by
          intro he
          exact hnd.1 (he ▸ List.mem_map_of_mem Prod.fst h)
        simp [getk, hne, ih hnd.2 h]

/-- C6 (amended): only the all-time rank helper has the `(N, N)` fallback for
a user absent from the ranked list; the period rank helper instead returns an
absent (`none`) position together with `N`. -/
theorem claim6_rank_fallback (users : Users) (scores : Scores) (uid : UserId)
    (start_d end_d : Day) :
    (uid ∉ (all_time_ranked users).map Prod.fst →
      calculate_all_time_rank users uid =
        ((all_time_ranked users).length, (all_time_ranked users).length)) ∧
    (uid ∉ (period_ranked scores start_d end_d).map Prod.fst →
      calculate_period_rank scores uid start_d end_d =
        (none, (period_ranked scores start_d end_d).length)) := by
  constructor
  · intro h
    simp [calculate_all_time_rank, rankScan_eq_none h 1]
  · intro h
    simp [calculate_period_rank, rankScan_eq_none h 1]

/-- Counterexample to C6 as stated: for the period ranking (one of the two
rank functions the claim quantifies over), a user absent from the ranked list
gets the absent position `none` — not the pair `(totalRanked, totalRanked)`,
which here would be position `1` of `1`. -/
theorem claim6_rank_fallback_cex :
    (calculate_period_rank [((0 : Int), [("B", ⟨10, 0⟩)])] "A" 0 0).1 = none ∧
    (calculate_period_rank [((0 : Int), [("B", ⟨10, 0⟩)])] "A" 0 0).2 = 1 := by
  decide

/-- Witness for the amended C6: a user absent from a one-row all-time ranking
gets `(1, 1)`; a user absent from a one-row period ranking gets `(none, 1)`. -/
theorem claim6_rank_fallback_witness :
    calculate_all_time_rank [("B", ⟨100, 2, 1, ⟨60, some 1⟩, ⟨40, some 0⟩⟩)] "A" = (1, 1) ∧
    calculate_period_rank [((0 : Int), [("B", ⟨10, 0⟩)])] "A" 0 0 = (none, 1) := by
  constructor
  · have h := (claim6_rank_fallback [("B", ⟨100, 2, 1, ⟨60, some 1⟩, ⟨40, some 0⟩⟩)]
      [] "A" 0 0).1 (by decide)
    simpa using h
  · have h := (claim6_rank_fallback [] [((0 : Int), [("B", ⟨10, 0⟩)])] "A" 0 0).2 (by decide)
    simpa using h

/-- C7: a user whose `days_played` is zero never appears in the all-time
ranked list, and the population `totalRanked` returned by the all-time rank is
the number of eligible (`days_played > 0`) users, so zero-day users never
contribute to it. -/
theorem claim7_eligibility (users : Users) (target uid : UserId) (st : UserStats)
    (hnd : (users.map Prod.fst).Nodup) (hst : getk uid users = some st)
    (hz : st.days_played = 0) :
    uid ∉ (all_time_ranked users).map Prod.fst ∧
    (calculate_all_time_rank users target).2 = (eligible_users users).length := by
  constructor
  · intro hmem
    rcases List.mem_map.mp hmem with ⟨r, hr, hfst⟩
    have hr' : r ∈ sortByKeyDesc (fun r => r.2) (all_time_rows users) := hr
    have hrows : r ∈ all_time_rows users :=
      (mem_sortByKeyDesc (fun r => r.2) r (all_time_rows users)).mp hr'
    rcases List.mem_map.mp hrows with ⟨p, hpelig, hpr⟩
    have hmemf := List.mem_filter.mp hpelig
    have hdays : 0 < p.2.days_played := by simpa using hmemf.2
    have hp1 : p.1 = uid := by rw [← hfst, ← hpr]
    have hgk : getk p.1 users = some p.2 := getk_eq_of_mem_nodup hnd hmemf.1
    rw [hp1, hst] at hgk
    have : st = p.2 := by injection hgk
    rw [← this] at hdays
    omega
  · cases h : rankScan target 1 (all_time_ranked users) <;>
      simp only [calculate_all_time_rank, h] <;>
      simp [all_time_ranked, length_sortByKeyDesc, all_time_rows]

/-- Witness for C7: with one zero-day user `Z` and one active user `B`, `Z` is
not in the ranked list and the returned population is 1. -/
theorem claim7_eligibility_witness :
    "Z" ∉ (all_time_ranked
      [("Z", ⟨0, 0, 0, ⟨0, none⟩, ⟨100000, none⟩⟩),
       ("B", ⟨100, 2, 1, ⟨60, some 1⟩, ⟨40, some 0⟩⟩)]).map Prod.fst ∧
    (calculate_all_time_rank
      [("Z", ⟨0, 0, 0, ⟨0, none⟩, ⟨100000, none⟩⟩),
       ("B", ⟨100, 2, 1, ⟨60, some 1⟩, ⟨40, some 0⟩⟩)] "B").2 = 1 := by
  have h := claim7_eligibility
    [("Z", ⟨0, 0, 0, ⟨0, none⟩, ⟨100000, none⟩⟩),
     ("B", ⟨100, 2, 1, ⟨60, some 1⟩, ⟨40, some 0⟩⟩)] "B" "Z"
    ⟨0, 0, 0, ⟨0, none⟩, ⟨100000, none⟩⟩ (by decide) (by decide) (by decide)
  exact ⟨h.1, by rw [h.2]; decide⟩

/-! ### Rivalry scan lemmas -/

theorem gapOf_mk (p : (UserId × Int) × (UserId × Int)) :
    gapOf (p.1.1, p.1.2, p.2.1, p.2.2) = pdiff p := rfl

theorem scanRivals_ne_none (threshold : Int) :
    ∀ (pairs : List ((UserId × Int) × (UserId × Int))) (b : Rival),
      scanRivals threshold (some b) pairs ≠ none := by
  intro pairs
  induction pairs with
  | nil =>
      intro b h
      simp [scanRivals] at h
  | cons p rest ih =>
      intro b
      by_cases h0 : pdiff p ≤ 0
      · simp only [scanRivals, if_pos h0]
        exact ih b
      · by_cases hb : betterRival threshold (some b) p
        · simp only [scanRivals, if_neg h0, if_pos hb]
          exact ih _
        · simp only [scanRivals, if_neg h0, if_neg hb]
          exact ih b

/-- Invariant of the adjacent-pair scan: any reported pair is a qualifying
pair (positive gap within the threshold) drawn from the initial best or the
scanned pairs, its gap is minimal among all qualifying scanned pairs and no
larger than the initial best's, and a `none` result means no scanned pair
qualified. -/
theorem scanRivals_spec (threshold : Int) :
    ∀ (pairs : List ((UserId × Int) × (UserId × Int))) (best : Option Rival),
      (∀ b, best = some b → 0 < gapOf b ∧ gapOf b ≤ threshold) →
      ((∀ r, scanRivals threshold best pairs = some r →
          (0 < gapOf r ∧ gapOf r ≤ threshold) ∧
          (best = some r ∨ ∃ p ∈ pairs, (p.1.1, p.1.2, p.2.1, p.2.2) = r) ∧
          (∀ p ∈ pairs, 0 < pdiff p → pdiff p ≤ threshold → gapOf r ≤ pdiff p) ∧
          (∀ b, best = some b → gapOf r ≤ gapOf b)) ∧
        (scanRivals threshold best pairs = none →
          ∀ p ∈ pairs, ¬(0 < pdiff p ∧ pdiff p ≤ threshold))) := by
  intro pairs
  induction pairs with
  | nil =>
      intro best hbest
      constructor
      · intro r hr
        simp only [scanRivals] at hr
        refine ⟨hbest r hr, Or.inl hr, by simp, ?_⟩
        intro b hb
        rw [hb] at hr
        have : b = r := by injection hr
        rw [this]
      · intro _ p hp
        simp at hp
  | cons p rest ih =>
      intro best hbest
      by_cases h0 : pdiff p ≤ 0
      · have hstep : scanRivals threshold best (p :: rest) =
            scanRivals threshold best rest := by
          simp only [scanRivals, if_pos h0]
        rw [hstep]
        have IH := ih best hbest
        constructor
        · intro r hr
          obtain ⟨hq, hsrc, hmin, hbmin⟩ := IH.1 r hr
          refine ⟨hq, ?_, ?_, hbmin⟩
          · rcases hsrc with h | ⟨q, hq2, he⟩
            · exact Or.inl h
            · exact Or.inr ⟨q, List.mem_cons_of_mem _ hq2, he⟩
          · intro q hq2 hqp hqt
            rcases List.mem_cons.mp hq2 with he | hm
            · subst he
              omega
            · exact hmin q hm hqp hqt
        · intro hr q hq2
          rcases List.mem_cons.mp hq2 with he | hm
          · subst he
            intro hc
            omega
          · exact IH.2 hr q hm
      · by_cases hbet : betterRival threshold best p
        · have hstep : scanRivals threshold best (p :: rest) =
              scanRivals threshold (some (p.1.1, p.1.2, p.2.1, p.2.2)) rest := by
            simp only [scanRivals, if_neg h0, if_pos hbet]
          rw [hstep]
          have hple : pdiff p ≤ threshold := by
            unfold betterRival at hbet
            simp only [Bool.and_eq_true, decide_eq_true_eq] at hbet
            exact hbet.1
          have hnb : ∀ b, (some (p.1.1, p.1.2, p.2.1, p.2.2) : Option Rival) = some b →
              0 < gapOf b ∧ gapOf b ≤ threshold := by
            intro b hb
            have hbe : (p.1.1, p.1.2, p.2.1, p.2.2) = b := by injection hb
            rw [← hbe, gapOf_mk]
            exact ⟨by omega, hple⟩
          have IH := ih _ hnb
          constructor
          · intro r hr
            obtain ⟨hq, hsrc, hmin, hbmin⟩ := IH.1 r hr
            refine ⟨hq, ?_, ?_, ?_⟩
            · rcases hsrc with h | ⟨q, hq2, he⟩
              · have hre : (p.1.1, p.1.2, p.2.1, p.2.2) = r := by injection h
                exact Or.inr ⟨p, List.mem_cons_self p rest, hre⟩
              · exact Or.inr ⟨q, List.mem_cons_of_mem _ hq2, he⟩
            · intro q hq2 hqp hqt
              rcases List.mem_cons.mp hq2 with he | hm
              · subst he
                have h1 := hbmin _ rfl
                rw [gapOf_mk] at h1
                exact h1
              · exact hmin q hm hqp hqt
            · intro b hb
              have h1 := hbmin _ rfl
              rw [gapOf_mk] at h1
              have h2 : pdiff p < gapOf b := by
                unfold betterRival at hbet
                rw [hb] at hbet
                simp only [Bool.and_eq_true, decide_eq_true_eq] at hbet
                exact hbet.2
              omega
          · intro hr
            exact absurd hr (scanRivals_ne_none threshold rest _)
        · have hstep : scanRivals threshold best (p :: rest) =
              scanRivals threshold best rest := by
            simp only [scanRivals, if_neg h0, if_neg hbet]
          rw [hstep]
          have IH := ih best hbest
          constructor
          · intro r hr
            obtain ⟨hq, hsrc, hmin, hbmin⟩ := IH.1 r hr
            refine ⟨hq, ?_, ?_, hbmin⟩
            · rcases hsrc with h | ⟨q, hq2, he⟩
              · exact Or.inl h
              · exact Or.inr ⟨q, List.mem_cons_of_mem _ hq2, he⟩
            · intro q hq2 hqp hqt
              rcases List.mem_cons.mp hq2 with he | hm
              · subst he
                cases hbb : best with
                | none =>
                    exfalso
                    unfold betterRival at hbet
                    rw [hbb] at hbet
                    simp only [Bool.and_eq_true, decide_eq_true_eq] at hbet
                    exact hbet ⟨hqt, trivial⟩
                | some b =>
                    have h2 : gapOf b ≤ pdiff q := by
                      unfold betterRival at hbet
                      rw [hbb] at hbet
                      simp only [Bool.and_eq_true, decide_eq_true_eq] at hbet
                      by_cases hqt2 : pdiff q ≤ threshold
                      · have := fun hlt => hbet ⟨hqt2, hlt⟩
                        omega
                      · omega
                    have h3 := hbmin b hbb
                    omega
              · exact hmin q hm hqp hqt
          · intro hr q hq2
            cases hbb : best with
            | some b =>
                rw [hbb] at hr
                exact absurd hr (scanRivals_ne_none threshold rest b)
            | none =>
                rcases List.mem_cons.mp hq2 with he | hm
                · subst he
                  intro hc
                  unfold betterRival at hbet
                  rw [hbb] at hbet
                  simp only [Bool.and_eq_true, decide_eq_true_eq] at hbet
                  exact hbet ⟨hc.2, trivial⟩
                · rw [hbb] at hr IH
                  exact IH.2 hr q hm

/-- C9: the rivalry detector reports at most one pair (its result is a single
optional pair); it bails out when the current-period population is below the
configured minimum; any reported pair is an adjacent pair of the total-sorted
leaderboard whose gap is strictly positive, within the threshold, and minimal
among all such adjacent pairs; and on weekly totals `A:500, B:490, C:300` with
`minPlayers = 3` it emits `(A, B)` with gap 10 at threshold 15 and nothing at
threshold 5. -/
theorem claim9_rivalry (scores : Scores) (mon today : Day) (threshold : Int)
    (minPlayers : Nat) :
    ((rival_totals scores mon today).length < minPlayers →
      do_rivalry_alert scores mon today threshold minPlayers = none) ∧
    (∀ r, do_rivalry_alert scores mon today threshold minPlayers = some r →
      (0 < gapOf r ∧ gapOf r ≤ threshold) ∧
      (∃ p ∈ adjPairs (rival_leaderboard scores mon today),
        (p.1.1, p.1.2, p.2.1, p.2.2) = r) ∧
      (∀ p ∈ adjPairs (rival_leaderboard scores mon today),
        0 < pdiff p → pdiff p ≤ threshold → gapOf r ≤ pdiff p)) ∧
    do_rivalry_alert [((0 : Int), [("A", ⟨500, 0⟩), ("B", ⟨490, 0⟩), ("C", ⟨300, 0⟩)])]
        0 0 15 3 = some ("A", 500, "B", 490) ∧
    gapOf ("A", 500, "B", 490) = 10 ∧
    do_rivalry_alert [((0 : Int), [("A", ⟨500, 0⟩), ("B", ⟨490, 0⟩), ("C", ⟨300, 0⟩)])]
        0 0 5 3 = none := by
  refine ⟨?_, ?_, by decide, by decide, by decide⟩
  · intro h
    simp [do_rivalry_alert, h]
  · intro r hr
    unfold do_rivalry_alert at hr
    by_cases h : (rival_totals scores mon today).length < minPlayers
    · rw [if_pos h] at hr
      exact absurd hr (by simp)
    · rw [if_neg h] at hr
      have hs := (scanRivals_spec threshold
        (adjPairs (rival_leaderboard scores mon today)) none (by simp)).1 r hr
      obtain ⟨hq, hsrc, hmin, _⟩ := hs
      refine ⟨hq, ?_, hmin⟩
      rcases hsrc with hnone | hex
      · exact absurd hnone (by simp)
      · exact hex

/-- Witness for C9: with the same three weekly totals but `minPlayers = 5`,
the population check fails and nothing is emitted. -/
theorem claim9_rivalry_witness :
    do_rivalry_alert [((0 : Int), [("A", ⟨500, 0⟩), ("B", ⟨490, 0⟩), ("C", ⟨300, 0⟩)])]
      0 0 15 5 = none :=
  (claim9_rivalry [((0 : Int), [("A", ⟨500, 0⟩), ("B", ⟨490, 0⟩), ("C", ⟨300, 0⟩)])]
    0 0 15 5).1 (by decide)

/-! ### Scheduler lemmas -/

theorem runJob_snd (js : JobState) (g : Bool) (t : TickIn) :
    (runJob js g t).2 =
      (js.alertOn && (t.hm == js.time) && g && !(js.lastRun == some t.today)) := by
  unfold runJob
  by_cases h : (js.alertOn && (t.hm == js.time) && g && !(js.lastRun == some t.today)) = true
  · simp [h]
  · simp only [Bool.not_eq_true] at h
    simp [h]

theorem runJob_fst (js : JobState) (g : Bool) (t : TickIn) :
    (runJob js g t).1 =
      if js.alertOn && (t.hm == js.time) && g && !(js.lastRun == some t.today) then
        { js with lastRun := some t.today }
      else js := by
  unfold runJob
  by_cases h : (js.alertOn && (t.hm == js.time) && g && !(js.lastRun == some t.today)) = true
  · simp [h]
  · simp only [Bool.not_eq_true] at h
    simp [h]

theorem scheduler_tick_enabled (s : Settings) (t : TickIn) :
    (scheduler_tick s t).1.enabled = s.enabled := by
  by_cases h : s.enabled <;> simp [scheduler_tick, h]

theorem firedOf_tick (s : Settings) (t : TickIn) (j : Job) :
    firedOf (scheduler_tick s t).2 j = fireCond s j t := by
  cases j <;> by_cases h : s.enabled <;>
    simp [scheduler_tick, h, firedOf, fireCond, jobState, gateOf, runJob_snd]

theorem jobState_tick (s : Settings) (t : TickIn) (j : Job) :
    jobState (scheduler_tick s t).1 j =
      if fireCond s j t then { jobState s j with lastRun := some t.today }
      else jobState s j := by
  cases j <;> by_cases h : s.enabled <;>
    simp [scheduler_tick, h, fireCond, jobState, gateOf, runJob_fst]

theorem countFires_eq_jobSteps (j : Job) :
    ∀ (ts : List TickIn) (s : Settings),
      countFires s ts j = jobSteps s.enabled j (jobState s j) ts := by
  intro ts
  induction ts with
  | nil => intro s; rfl
  | cons t rest ih =>
      intro s
      have hsnd : (if s.enabled then runJob (jobState s j) (gateOf j t) t
          else (jobState s j, false)).2 = fireCond s j t := by
        by_cases h : s.enabled <;> simp [h, runJob_snd, fireCond]
      have hfst : (if s.enabled then runJob (jobState s j) (gateOf j t) t
          else (jobState s j, false)).1 = jobState (scheduler_tick s t).1 j := by
        by_cases h : s.enabled <;>
          simp [h, runJob_fst, jobState_tick, fireCond]
      show (if firedOf (scheduler_tick s t).2 j then 1 else 0) +
          countFires (scheduler_tick s t).1 rest j = _
      rw [firedOf_tick, ih (scheduler_tick s t).1, scheduler_tick_enabled]
      simp only [jobSteps, hsnd, hfst]

theorem jobSteps_zero_of_stamped (enabled : Bool) (j : Job) (D : Day) :
    ∀ (ts : List TickIn) (js : JobState), (∀ t ∈ ts, t.today = D) →
      js.lastRun = some D → jobSteps enabled j js ts = 0 := by
  intro ts
  induction ts with
  | nil => intro js _ _; rfl
  | cons t rest ih =>
      intro js hts hlast
      have htoday : t.today = D := hts t (List.mem_cons_self t rest)
      have hcond : (js.alertOn && (t.hm == js.time) && gateOf j t &&
          !(js.lastRun == some t.today)) = false := by
        rw [hlast, htoday]
        simp
      have hr : (if enabled then runJob js (gateOf j t) t else (js, false)) = (js, false) := by
        by_cases h : enabled
        · simp only [if_pos h, runJob, hcond]
          simp
        · simp [h]
      simp only [jobSteps, hr]
      simpa using ih js (fun t' ht' => hts t' (List.mem_cons_of_mem t ht')) hlast

theorem jobSteps_le_one (enabled : Bool) (j : Job) (D : Day) :
    ∀ (ts : List TickIn) (js : JobState), (∀ t ∈ ts, t.today = D) →
      jobSteps enabled j js ts ≤ 1 := by
  intro ts
  induction ts with
  | nil => intro js _; simp [jobSteps]
  | cons t rest ih =>
      intro js hts
      have htoday : t.today = D := hts t (List.mem_cons_self t rest)
      have hrest : ∀ t' ∈ rest, t'.today = D :=
        fun t' ht' => hts t' (List.mem_cons_of_mem t ht')
      by_cases hen : enabled
      · by_cases hcond : (js.alertOn && (t.hm == js.time) && gateOf j t &&
            !(js.lastRun == some t.today)) = true
        · have hr : (if enabled then runJob js (gateOf j t) t else (js, false)) =
              ({ js with lastRun := some t.today }, true) := by
            simp only [if_pos hen, runJob, hcond]
            simp
          simp only [jobSteps, hr]
          have hz := jobSteps_zero_of_stamped enabled j D rest
            { js with lastRun := some t.today } hrest (by simp [htoday])
          simp [hz]
        · have hr : (if enabled then runJob js (gateOf j t) t else (js, false)) =
              (js, false) := by
            simp only [Bool.not_eq_true] at hcond
            simp only [if_pos hen, runJob, hcond]
            simp
          simp only [jobSteps, hr]
          simpa using ih js hrest
      · simp only [jobSteps, if_neg hen]
        simpa using ih js hrest

/-- C4: threading the persisted settings through any number of scheduler
ticks within one day key, each job's action runs at most once; a job fires
exactly when the bot and the alert are enabled, the current `HH:MM` equals its
configured time, its calendar gate holds, and its `last_run` differs from the
current day key; and a fire stamps `last_run` with the current day key. -/
theorem claim4_scheduler_fires_once (s : Settings) (ts : List TickIn) (D : Day)
    (j : Job) (t : TickIn) :
    ((∀ t' ∈ ts, t'.today = D) → countFires s ts j ≤ 1) ∧
    firedOf (scheduler_tick s t).2 j = fireCond s j t ∧
    (firedOf (scheduler_tick s t).2 j = true →
      (jobState (scheduler_tick s t).1 j).lastRun = some t.today) := by
  refine ⟨?_, firedOf_tick s t j, ?_⟩
  · intro h
    rw [countFires_eq_jobSteps]
    exact jobSteps_le_one s.enabled j D ts (jobState s j) h
  · intro hf
    rw [firedOf_tick] at hf
    simp [jobState_tick, hf]

/-- Witness for C4: two identical ticks at the daily-post time on day 7 fire
the daily post exactly once. -/
theorem claim4_scheduler_fires_once_witness :
    countFires
      ⟨true, ⟨true, "00:00", none⟩, ⟨true, "09:00", none⟩, ⟨true, "09:00", none⟩,
        ⟨true, "09:00", none⟩, ⟨true, "09:00", none⟩⟩
      [⟨"00:00", 0, 2, 7⟩, ⟨"00:00", 0, 2, 7⟩] Job.dailyPost ≤ 1 ∧
    countFires
      ⟨true, ⟨true, "00:00", none⟩, ⟨true, "09:00", none⟩, ⟨true, "09:00", none⟩,
        ⟨true, "09:00", none⟩, ⟨true, "09:00", none⟩⟩
      [⟨"00:00", 0, 2, 7⟩, ⟨"00:00", 0, 2, 7⟩] Job.dailyPost = 1 := by
  constructor
  · exact (claim4_scheduler_fires_once
      ⟨true, ⟨true, "00:00", none⟩, ⟨true, "09:00", none⟩, ⟨true, "09:00", none⟩,
        ⟨true, "09:00", none⟩, ⟨true, "09:00", none⟩⟩
      [⟨"00:00", 0, 2, 7⟩, ⟨"00:00", 0, 2, 7⟩] 7 Job.dailyPost
      ⟨"00:00", 0, 2, 7⟩).1 (by decide)
  · decide

/-! ### Rebuild lemmas -/

theorem getk_map_snd [DecidableEq κ] (k : κ) (f : κ → β → β) (l : List (κ × β)) :
    getk k (l.map (fun p => (p.1, f p.1 p.2))) = (getk k l).map (f k) := by
  induction l with
  | nil => rfl
  | cons p rest ih =>
      by_cases h : k = p.1
      · simp [getk, h]
      · simp [getk, h, ih]

/-- C10: the rebuild finalization sets every rebuilt user's `best_streak` to
the current streak of consecutive played days ending today, computed from the
ledger — not the historical maximum — and on a concrete ledger whose only run
ended yesterday the rebuilt `best_streak` is 0 even though a streak of length
2 is present in the ledger's history. -/
theorem claim10_rebuild_streak (today : Day) (scores : Scores) :
    (∀ uid st, getk uid (repair_stats today scores) = some st →
      st.best_streak = calculate_current_streak scores uid today) ∧
    ((getk "u" (repair_stats 10
        [((8 : Int), [("u", ⟨100, 0⟩)]), ((9 : Int), [("u", ⟨100, 0⟩)])])).map
        UserStats.best_streak = some 0 ∧
      calculate_current_streak
        [((8 : Int), [("u", ⟨100, 0⟩)]), ((9 : Int), [("u", ⟨100, 0⟩)])] "u" 9 = 2) := by
  constructor
  · intro uid st hst
    unfold repair_stats at hst
    rw [getk_map_snd uid (repairFinalize today scores)] at hst
    cases h : getk uid (scores.foldl (fun acc p => repairAccum acc p.1 p.2) []) with
    | none =>
        rw [h] at hst
        simp at hst
    | some st0 =>
        rw [h] at hst
        simp only [Option.map_some', Option.some.injEq] at hst
        rw [← hst]
        rfl
  · exact ⟨by decide, by decide⟩

/-- Witness for C10: on the concrete two-day ledger the rebuilt stats of `u`
are exactly total 200, 2 days, streak 0, PB and low `(100, day 8)`, and that
streak equals the current streak of the rebuilt ledger. -/
theorem claim10_rebuild_streak_witness :
    (⟨200, 2, 0, ⟨100, some 8⟩, ⟨100, some 8⟩⟩ : UserStats).best_streak =
      calculate_current_streak
        [((8 : Int), [("u", ⟨100, 0⟩)]), ((9 : Int), [("u", ⟨100, 0⟩)])] "u" 10 :=
  (claim10_rebuild_streak 10
    [((8 : Int), [("u", ⟨100, 0⟩)]), ((9 : Int), [("u", ⟨100, 0⟩)])]).1 "u"
    ⟨200, 2, 0, ⟨100, some 8⟩, ⟨100, some 8⟩⟩ (by decide)

end MapTap
